import Mathlib

/-!
Verification of the numeric transform pipeline of
`find_correlation_in_pcp_data.py`.

The script ingests a fixed-interval table of named metric columns (pandas
DataFrame, one row per time sample, missing values filled with 0) and
 (a) smears long duration events backward in time
     (`split_long_duration_to_past`),
 (b) rewrites the cumulative memory load column into a memory-increase
     column (the module-level loop at the end of the script),
 (c) aggregates per-process `proc.hog.*` columns into per-group sums,
 (d) ranks Pearson correlations of every remaining column against the
     load series (`find_correl_in_df`).

The embedding below models a metric column as `List ℚ` (the CSV holds
finite decimal numbers; ℚ contains them all and makes every comparison
decidable) and a table as an association list of named columns sharing
one sample index.
-/

/-- A metric column: one rational value per time sample, index 0 earliest. -/
abbrev Col := List ℚ

/-- A table: named metric columns, all sharing the sample index. -/
abbrev Table := List (String × Col)

/-! ## Generic list lemmas used throughout -/

theorem getD_set_ne (xs : Col) (j m : Nat) (v : ℚ) (h : j ≠ m) :
    (xs.set j v).getD m 0 = xs.getD m 0 := by
  simp [List.getD_eq_getElem?_getD, List.getElem?_set_ne h]

theorem getD_set_self (xs : Col) (j : Nat) (v : ℚ) (h : j < xs.length) :
    (xs.set j v).getD j 0 = v := by
  simp [List.getD_eq_getElem?_getD, List.getElem?_set_self, h]

theorem sum_set (xs : Col) (j : Nat) (v : ℚ) (h : j < xs.length) :
    (xs.set j v).sum = xs.sum - xs.getD j 0 + v := by
  induction xs generalizing j with
  | nil => simp at h
  | cons a t ih =>
      cases j with
      | zero => simp [List.getD]; ring
      | succ j' =>
          have hj : j' < t.length := by simpa using h
          simp only [List.set, List.sum_cons, List.getD_cons_succ, ih j' hj]
          ring

theorem sum_eq_range_getD (xs : Col) :
    xs.sum = (Finset.range xs.length).sum (fun i => xs.getD i 0) := by
  induction xs with
  | nil => simp
  | cons a t ih =>
      simp only [List.sum_cons, List.length_cons, Finset.sum_range_succ']
      simp [List.getD_cons_succ, List.getD_cons_zero, ih, add_comm]

/-! ## Substring containment (Python's `'duration' in col`) -/

/-- `containsSub hay needle` is Python's `needle in hay` on character
lists: some suffix of `hay` starts with `needle`. -/
def containsSub : List Char → List Char → Bool
  | [], needle => needle.isEmpty
  | hay@(_ :: t), needle => needle.isPrefixOf hay || containsSub t needle

/-- `occursIn needle hay`: the string `needle` occurs contiguously inside
`hay` (Python `needle in hay`; also the semantics of a pandas
`filter(regex=...)` match for a metacharacter-free pattern). -/
def occursIn (needle hay : String) : Bool :=
  containsSub hay.data needle.data

/-- Column marker used by `split_long_duration_to_past`:
`if 'duration' not in col: continue`. -/
def hasDurMark (name : String) : Bool :=
  occursIn ("duration") name

/-! ## Duration smearing (`split_long_duration_to_past`, lines 99-111) -/

/-- The inner `while j >= 0 and remaining > 0` loop of
`split_long_duration_to_past`: called with the index *one above* the
first index written, it adds `min remaining 60` to the current value at
each step, then moves one index down and subtracts 60 from `remaining`.
`spillBack xs j r` performs the walk that the script starts at `j-1`
with remaining `r`. -/
def spillBack : Col → Nat → ℚ → Col
  | xs, 0, _ => xs
  | xs, j+1, r =>
      if 0 < r then
        spillBack (xs.set j (xs.getD j 0 + min r 60)) j (r - 60)
      else xs

/-- The outer `for i in range(0, my_df[col].size)` loop of
`split_long_duration_to_past`, processing index `i` with `fuel`
iterations left: when the current value `d` at `i` exceeds 30 it spills
`d - 30` backward starting at `i-1` and caps index `i` at exactly 30;
otherwise it leaves the sample alone. -/
def smearFrom : Nat → Nat → Col → Col
  | 0, _, xs => xs
  | fuel+1, i, xs =>
      if 30 < xs.getD i 0 then
        smearFrom fuel (i+1) ((spillBack xs i (xs.getD i 0 - 30)).set i 30)
      else
        smearFrom fuel (i+1) xs

/-- One full pass of the duration-smearing loop over a single column. -/
def smearCol (xs : Col) : Col := smearFrom xs.length 0 xs

/-- `split_long_duration_to_past(my_df)`: every column whose name
contains the substring `duration` is smeared in place; all other columns
are skipped (`continue`). -/
def split_long_duration_to_past (t : Table) : Table :=
  t.map (fun c => if hasDurMark c.1 then (c.1, smearCol c.2) else c)

/-! ## Memory increase (module-level loop, lines 226-234) -/

/-- The descending loop `for i in range(df_load["memory"].size-1, 0, -1)`:
`memIncFrom xs i` still has to process indices `i, i-1, ..., 1`.  At
index `i+1` it reads `oldest` at `i` and `newest` at `i+1` from the
*current* column state and rewrites index `i+1`. -/
def memIncFrom : Col → Nat → Col
  | xs, 0 => xs
  | xs, i+1 =>
      memIncFrom
        (if xs.getD i 0 = 0 ∨ xs.getD (i+1) 0 < xs.getD i 0 then
           xs.set (i+1) 0
         else
           xs.set (i+1) (xs.getD (i+1) 0 - xs.getD i 0))
        i

/-- The full memory-consumption-to-increase rewrite of the script:
`df_load.at[0, "memory"] = 0` first, then the descending loop from the
last index down to index 1. -/
def memIncrease (xs : Col) : Col :=
  memIncFrom (xs.set 0 0) (xs.length - 1)

/-! ## Correlation engine (`find_correl_in_df`, lines 114-132)

`my_df.corrwith(load)` computes the Pearson coefficient of each column
against the load series.  With `n` samples, Pearson's
`r = C / (√V₁ · √V₂)` where `C = n·Σxy − Σx·Σy`, `V₁ = n·Σx² − (Σx)²`,
`V₂ = n·Σy² − (Σy)²`, and is NaN when a variance is zero.  To stay in ℚ
(the square roots are irrational) the engine below represents each
coefficient by its *signed square* `r·|r| = C·|C| / (V₁·V₂)`.  The map
`r ↦ r·|r|` is strictly increasing and fixes −1, 0 and 1, so NaN-filling
with 0, descending sorting, truncation, and the distinguished values 0
and 1 are all represented exactly. -/

/-- Sum of the first `n` samples of a column. -/
def sumN (n : Nat) (xs : Col) : ℚ :=
  (Finset.range n).sum (fun i => xs.getD i 0)

/-- Sum of pointwise products over the first `n` samples. -/
def dotN (n : Nat) (xs ys : Col) : ℚ :=
  (Finset.range n).sum (fun i => xs.getD i 0 * ys.getD i 0)

/-- `n` times the sample covariance times `n`: `n·Σxy − Σx·Σy`. -/
def covN (n : Nat) (xs ys : Col) : ℚ :=
  n * dotN n xs ys - sumN n xs * sumN n ys

/-- `n²` times the sample variance: `n·Σx² − (Σx)²`. -/
def varN (n : Nat) (xs : Col) : ℚ :=
  covN n xs xs

/-- The Pearson coefficient of a column against the load series over `n`
samples, represented by its signed square (see above); `none` models the
NaN that pandas produces when either series has zero variance. -/
def corrKey (n : Nat) (xs ys : Col) : Option ℚ :=
  if varN n xs = 0 ∨ varN n ys = 0 then none
  else some (covN n xs ys * |covN n xs ys| / (varN n xs * varN n ys))

/-- `.corrwith(load) .fillna(value=0)` applied to one named column:
an undefined (NaN) coefficient is replaced by 0. -/
def coeffFill (n : Nat) (load : Col) (c : String × Col) : String × ℚ :=
  (c.1, (corrKey n c.2 load).getD 0)

/-- Descending order on (name, coefficient) pairs, by coefficient value
(`sort_values(ascending=False)`). -/
def rankLe (a b : String × ℚ) : Prop := b.2 ≤ a.2

instance : DecidableRel rankLe :=
  fun a b => inferInstanceAs (Decidable (b.2 ≤ a.2))

instance : IsTotal (String × ℚ) rankLe := ⟨fun a b => le_total b.2 a.2⟩

instance : IsTrans (String × ℚ) rankLe := ⟨fun _ _ _ h h2 => le_trans h2 h⟩

/-- Lines 119-123 / 126-129 of the script: compute the coefficient of
every column of `t` against `load`, replace NaN by 0, sort descending by
coefficient, truncate to `limit` items (`[:args.items_limit]`). -/
def rankCorrel (n : Nat) (t : Table) (load : Col) (limit : Nat) :
    List (String × ℚ) :=
  (List.insertionSort rankLe (t.map (coeffFill n load))).take limit

/-! ## Process aggregation (module-level loop, lines 211-219) -/

/-- Python `str.split()` on a character list: split on blanks, dropping
empty fields; `acc` holds the current field reversed. -/
def splitTokensAux : List Char → List Char → List (List Char)
  | [], acc => if acc.isEmpty then [] else [acc.reverse]
  | c :: rest, acc =>
      if c = ' ' then
        if acc.isEmpty then splitTokensAux rest []
        else acc.reverse :: splitTokensAux rest []
      else splitTokensAux rest (c :: acc)

/-- `x.split()[-1]`: the final whitespace-delimited token of a column
name (the process identifier). -/
def lastToken (s : String) : String :=
  String.mk ((splitTokensAux s.data []).getLastD [])

/-- Value at sample `i` of the aggregated column of a column group:
`pivot_df.filter(regex=group).sum(axis=1)` at row `i`.  The pandas
regex match of a (metacharacter-free) process name is substring
containment, `occursIn`. -/
def aggGroupAt (pivotCols : Table) (g : String) (i : Nat) : ℚ :=
  ((pivotCols.filter (fun c => occursIn g c.1)).map
    (fun c => c.2.getD i 0)).sum

/-- Lines 216-218: group the pivot's columns by the final whitespace
token of their name (`set` of keys, modelled as `dedup`), and produce
one column `<pivot>:<group>` per group holding the row-wise sum of every
pivot column whose *name matches the group as a regex*, over `n`
samples. -/
def aggPivot (n : Nat) (pivot : String) (pivotCols : Table) : Table :=
  ((pivotCols.map (fun c => lastToken c.1)).dedup).map
    (fun g => (pivot ++ ":" ++ g,
               (List.range n).map (fun i => aggGroupAt pivotCols g i)))

/-- `s` starts with `pre` (the `^pattern` regex anchor). -/
def strStarts (pre s : String) : Bool :=
  pre.data.isPrefixOf s.data

/-- `s` ends with `suf` (the `pattern$` regex anchor). -/
def strEnds (suf s : String) : Bool :=
  suf.data.isSuffixOf s.data

/-- The whole aggregation loop over the two fixed pivots: the original
`proc.hog.cpu *` and `proc.hog.mem *` columns are removed from the
symptom table and the aggregated group columns are appended
(`df_symptoms.join(proc_df)`). -/
def aggregateHogs (n : Nat) (symptoms : Table) : Table :=
  (symptoms.filter (fun c =>
      !(strStarts ("proc.hog.cpu") c.1) && !(strStarts ("proc.hog.mem") c.1)))
  ++ aggPivot n ("proc.hog.cpu")
       (symptoms.filter (fun c => strStarts ("proc.hog.cpu") c.1))
  ++ aggPivot n ("proc.hog.mem")
       (symptoms.filter (fun c => strStarts ("proc.hog.mem") c.1))

/-! ## The script driver (argument handling, checks, classification)

The CSV read, the `fillna(value=0)` and the removal of the leading
timestamp column happen at the ingestion boundary; `runScript` takes the
resulting table.  Regex prefix/suffix matches of the static pattern
lists are modelled as literal prefix/suffix matches (the patterns
contain no regex metacharacter besides `.`, which matches itself on
every intended column name). -/

/-- `--load-type` with `choices=['CPU', 'memory', 'both']`. -/
inductive LoadType
  | cpu
  | memory
  | both
deriving DecidableEq

/-- `DROP_COLUMN_SUFFIXES_RE`: drop statistical-aggregate columns. -/
def dropSuffixMatch (name : String) : Bool :=
  [("-/median"), ("-/min"), ("-/percentile90"), ("-/percentile95"),
   ("-/percentile99"), ("-/std_deviation")].any (fun s => strEnds s name)

/-- `DROP_COLUMNS_FOR_CORREL_RE`: columns never correlated. -/
def correlDropMatch (name : String) : Bool :=
  [("kernel.all.load"), ("mem.util"), ("statsd.pmda")].any
    (fun s => strStarts s name)

/-- `COLUMNS_FOR_TRIGGERS_PREFIXES_RE`: trigger columns. -/
def triggerMatch (name : String) : Bool :=
  [("statsd.fm_rails_http_request"), ("statsd.fm_rails_importer_facts"),
   ("openmetrics.foreman_tasks")].any (fun s => strStarts s name)

/-- Select a column by exact label (`df.filter(items=[...])` plus the
rename); `none` when the label is absent. -/
def lookupCol (name : String) (t : Table) : Option Col :=
  (t.find? (fun c => c.1 == name)).map Prod.snd

/-- One `find_correl_in_df(df_load, my_df, ...)` invocation: smear the
candidate table, then rank it against `CPU` unless the load type is
memory-only and against `memory` unless it is CPU-only.  The result
pairs the two optional rankings; the outer `none` models the unhandled
`KeyError` the script raises when it reads a load column that is absent
from `df_load` (e.g. dropped by the all-zero filter). -/
def find_correl_in_df (n limit : Nat) (cpuCol memCol : Option Col)
    (lt : LoadType) (t : Table) :
    Option (Option (List (String × ℚ)) × Option (List (String × ℚ))) :=
  let t2 := split_long_duration_to_past t
  match lt with
  | .memory =>
      match memCol with
      | none => none
      | some m => some (none, some (rankCorrel n t2 m limit))
  | .cpu =>
      match cpuCol with
      | none => none
      | some c => some (some (rankCorrel n t2 c limit), none)
  | .both =>
      match cpuCol, memCol with
      | some c, some m =>
          some (some (rankCorrel n t2 c limit), some (rankCorrel n t2 m limit))
      | _, _ => none

/-- Outcome of one program run: the explicit `exit(1)` of the required-
column checks, an unhandled error later in the pipeline (Python exits
with a traceback, after transforms have already run and partial output
was printed), or the normal ranked reports. -/
inductive ScriptOutcome
  | fatal (code : Nat)
  | crash
  | reports (tr : Option (List (String × ℚ)) × Option (List (String × ℚ)))
            (sy : Option (Option (List (String × ℚ)) × Option (List (String × ℚ))))
deriving DecidableEq

/-- Everything the script runs after its two required-column checks,
lines 183-238: the suffix drop, the all-zero-column drop, the
trigger/symptom/load classification, the `proc.hog` aggregation, the
memory-increase rewrite (only when the load type includes memory), and
the one or two `find_correl_in_df` invocations.  `n` is the number of
samples of the shared index. -/
def runPipeline (n limit : Nat) (lt : LoadType) (showSymptoms : Bool)
    (df0 : Table) : ScriptOutcome :=
    let df1 := df0.filter (fun c => !(dropSuffixMatch c.1))
    let df2 := df1.filter (fun c => c.2.any (fun v => decide (v ≠ 0)))
    let dfTriggers := df2.filter (fun c => triggerMatch c.1)
    let dfSymptoms :=
      aggregateHogs n
        ((df2.filter (fun c => !(triggerMatch c.1))).filter
          (fun c => !(correlDropMatch c.1)))
    let cpuCol := lookupCol ("kernel.all.load-1 minute") df2
    let memRaw := lookupCol ("mem.util.committed_AS") df2
    match (if lt = .cpu then some memRaw else memRaw.map (fun m => some (memIncrease m)) : Option (Option Col)) with
    | none => .crash
    | some memCol =>
        match find_correl_in_df n limit cpuCol memCol lt dfTriggers with
        | none => .crash
        | some tr =>
            if showSymptoms then
              match find_correl_in_df n limit cpuCol memCol lt dfSymptoms with
              | none => .crash
              | some sy => .reports tr (some sy)
            else .reports tr none

/-- The module-level driver, lines 170-238: the two required-column
checks (each a `print` and `exit(1)`, executed before anything else),
then the pipeline. -/
def runScript (n limit : Nat) (lt : LoadType) (showSymptoms : Bool)
    (df0 : Table) : ScriptOutcome :=
  if lt ≠ .cpu ∧ ("mem.util.committed_AS") ∉ df0.map Prod.fst then .fatal 1
  else if lt ≠ .memory ∧ ("kernel.all.load-1 minute") ∉ df0.map Prod.fst then
    .fatal 1
  else runPipeline n limit lt showSymptoms df0

/-! ## Lemmas about the backward spill walk -/

theorem spillBack_nonpos (xs : Col) (j : Nat) (r : ℚ) (h : ¬ 0 < r) :
    spillBack xs j r = xs := by
  cases j with
  | zero => rfl
  | succ j' => simp [spillBack, h]

theorem spillBack_length (xs : Col) (j : Nat) (r : ℚ) :
    (spillBack xs j r).length = xs.length := by
  induction j generalizing xs r with
  | zero => rfl
  | succ j' ih =>
      by_cases h : 0 < r
      · simp [spillBack, h, ih]
      · simp [spillBack, h]

theorem ceil60_pos (r : ℚ) (h : 0 < r) : 1 ≤ ⌈r / 60⌉ :=
  Int.ceil_pos.mpr (div_pos h (by norm_num))

theorem ceil60_shift (r : ℚ) : ⌈(r - 60) / 60⌉ = ⌈r / 60⌉ - 1 := by
  have h : (r - 60) / 60 = r / 60 - 1 := by ring
  rw [h, Int.ceil_sub_one]

theorem spillBack_getD_ge (xs : Col) (j : Nat) (r : ℚ) (m : Nat)
    (h : j ≤ m) : (spillBack xs j r).getD m 0 = xs.getD m 0 := by
  induction j generalizing xs r with
  | zero => rfl
  | succ j' ih =>
      by_cases hr : 0 < r
      · simp only [spillBack, if_pos hr]
        rw [ih _ _ (le_of_lt (Nat.lt_of_succ_le h)),
          getD_set_ne _ _ _ _ (Nat.ne_of_lt (Nat.lt_of_succ_le h))]
      · rw [spillBack_nonpos _ _ _ hr]

theorem spillBack_getD_low (xs : Col) (j : Nat) (r : ℚ) (m : Nat)
    (h : m + (⌈r / 60⌉).toNat < j) :
    (spillBack xs j r).getD m 0 = xs.getD m 0 := by
  induction j generalizing xs r with
  | zero => rfl
  | succ j' ih =>
      by_cases hr : 0 < r
      · have h1 : 1 ≤ ⌈r / 60⌉ := ceil60_pos r hr
        have hk : ⌈(r - 60) / 60⌉ = ⌈r / 60⌉ - 1 := ceil60_shift r
        have hmj : m < j' := by omega
        simp only [spillBack, if_pos hr]
        rw [ih _ _ (by omega), getD_set_ne _ _ _ _ (Nat.ne_of_gt hmj)]
      · rw [spillBack_nonpos _ _ _ hr]

theorem spillBack_sum (xs : Col) (j : Nat) (r : ℚ) (hr : 0 < r)
    (hk : (⌈r / 60⌉).toNat ≤ j) (hj : j ≤ xs.length) :
    (spillBack xs j r).sum = xs.sum + r := by
  induction j generalizing xs r with
  | zero =>
      exact absurd hk (by have := ceil60_pos r hr; omega)
  | succ j' ih =>
      have hlt : j' < xs.length := Nat.lt_of_succ_le hj
      have hsum : (xs.set j' (xs.getD j' 0 + min r 60)).sum
          = xs.sum + min r 60 := by
        rw [sum_set _ _ _ hlt]; ring
      simp only [spillBack, if_pos hr]
      by_cases hr60 : 0 < r - 60
      · have h1 : 1 ≤ ⌈r / 60⌉ := ceil60_pos r hr
        have hkk : ⌈(r - 60) / 60⌉ = ⌈r / 60⌉ - 1 := ceil60_shift r
        have hmin : min r 60 = 60 := min_eq_right (by linarith)
        rw [ih _ _ hr60 (by omega)
            (by rw [List.length_set]; exact Nat.le_of_succ_le hj)]
        rw [hsum, hmin]; ring
      · have hmin : min r 60 = r := min_eq_left (by linarith)
        rw [spillBack_nonpos _ _ _ hr60, hsum, hmin]

/-! ## Lemmas about the smearing pass -/

theorem smearFrom_length (fuel i : Nat) (xs : Col) :
    (smearFrom fuel i xs).length = xs.length := by
  induction fuel generalizing i xs with
  | zero => rfl
  | succ fuel' ih =>
      rw [smearFrom]
      by_cases h : 30 < xs.getD i 0
      · rw [if_pos h, ih, List.length_set, spillBack_length]
      · rw [if_neg h, ih]

theorem smearCol_length (xs : Col) : (smearCol xs).length = xs.length :=
  smearFrom_length _ _ _

/-- A run of the outer loop over samples that are all ≤ 30 changes
nothing. -/
theorem smearFrom_skip (fuel i : Nat) (xs : Col)
    (h : ∀ m, i ≤ m → xs.getD m 0 ≤ 30) : smearFrom fuel i xs = xs := by
  induction fuel generalizing i with
  | zero => rfl
  | succ fuel' ih =>
      have hv : ¬ 30 < xs.getD i 0 := not_lt.mpr (h i le_rfl)
      simp only [smearFrom, if_neg hv]
      exact ih (i + 1) (fun m hm => h m (le_of_lt (Nat.lt_of_succ_le hm)))

/-- The outer loop passes over a stretch of samples that are all ≤ 30
without changing the column. -/
theorem smearFrom_run (fuel i j : Nat) (xs : Col) (hij : i ≤ j)
    (hfuel : j - i ≤ fuel) (h : ∀ m, i ≤ m → m < j → xs.getD m 0 ≤ 30) :
    smearFrom fuel i xs = smearFrom (fuel - (j - i)) j xs := by
  induction fuel generalizing i with
  | zero =>
      have : i = j := by omega
      subst this; simp
  | succ fuel' ih =>
      rcases Nat.eq_or_lt_of_le hij with heq | hlt
      · subst heq; simp
      · have hv : ¬ 30 < xs.getD i 0 := not_lt.mpr (h i le_rfl hlt)
        simp only [smearFrom, if_neg hv]
        have harith : fuel' + 1 - (j - i) = fuel' - (j - (i + 1)) := by omega
        rw [harith]
        exact ih (i + 1) (Nat.succ_le_of_lt hlt) (by omega)
          (fun m hm hmj => h m (le_of_lt (Nat.lt_of_succ_le hm)) hmj)

/-- Every index at or above a threshold `tgt` is preserved by the whole
pass, provided every value at or above `tgt` is ≤ 30: the pass writes
into an index only from its own step (value > 30) or from the backward
spill of a strictly higher step. -/
theorem smearFrom_getD_suffix (fuel i tgt : Nat) (xs : Col)
    (h : ∀ m, tgt ≤ m → xs.getD m 0 ≤ 30) :
    ∀ m, tgt ≤ m → (smearFrom fuel i xs).getD m 0 = xs.getD m 0 := by
  induction fuel generalizing i xs with
  | zero => intro m _; rfl
  | succ fuel' ih =>
      intro m hm
      by_cases hv : 30 < xs.getD i 0
      · have hit : i < tgt := by
          by_contra hc
          exact absurd (h i (not_lt.mp hc)) (not_le.mpr hv)
        have hpres : ∀ m', tgt ≤ m' →
            ((spillBack xs i (xs.getD i 0 - 30)).set i 30).getD m' 0
              = xs.getD m' 0 := by
          intro m' hm'
          rw [getD_set_ne _ _ _ _ (Nat.ne_of_lt (lt_of_lt_of_le hit hm')),
            spillBack_getD_ge _ _ _ _ (le_of_lt (lt_of_lt_of_le hit hm'))]
        simp only [smearFrom, if_pos hv]
        rw [ih (i + 1) _ (fun m' hm' => (hpres m' hm').trans_le (h m' hm'))
            m hm, hpres m hm]
      · simp only [smearFrom, if_neg hv]
        exact ih (i + 1) _ h m hm

/-- Shared concrete evaluation: a single long duration of 97 at index 2
of a 5-sample column is smeared into 7, 60 and a capped 30. -/
theorem smearCol_97_eval : smearCol [0, 0, 97, 0, 0] = [7, 60, 30, 0, 0] := by
  norm_num [smearCol, smearFrom, spillBack]

theorem hasDurMark_duration_x : hasDurMark ("duration_x") = true := by decide

theorem split_head_duration (nm : String) (xs : Col) (t : Table)
    (h : hasDurMark nm = true) :
    split_long_duration_to_past ((nm, xs) :: t)
      = (nm, smearCol xs) :: split_long_duration_to_past t := by
  simp [split_long_duration_to_past, h]

/-! ## Locating a column of the transformed table -/

theorem hasDurMark_empty : hasDurMark ("") = false := by decide

theorem getD_oob (t : Table) (p : Nat) (h : ¬ p < t.length) :
    t.getD p (("", [])) = (("", [])) := by
  rw [List.getD_eq_getElem?_getD, List.getElem?_eq_none (by omega)]
  rfl

theorem split_getD_of_mem (t : Table) (p : Nat) (nm : String) (xs : Col)
    (hp : p < t.length) (hcol : t.getD p (("", [])) = (nm, xs))
    (hdur : hasDurMark nm = true) :
    (split_long_duration_to_past t).getD p (("", [])) = (nm, smearCol xs) := by
  cases hx : t[p]? with
  | none =>
      rw [List.getElem?_eq_none_iff] at hx
      omega
  | some c =>
      have hc : c = (nm, xs) := by
        rw [List.getD_eq_getElem?_getD, hx] at hcol
        exact hcol
      subst hc
      rw [List.getD_eq_getElem?_getD, split_long_duration_to_past,
        List.getElem?_map, hx]
      simp [hdur]

/-- A column that is zero everywhere except one sample `d > 30` at index
`i` is smeared into exactly one spill walk followed by the cap at 30. -/
theorem smearCol_single_spike (xs : Col) (i : Nat) (d : ℚ)
    (hi : i < xs.length) (hd : xs.getD i 0 = d) (h30 : 30 < d)
    (hz : ∀ m, m ≠ i → xs.getD m 0 = 0) :
    smearCol xs = (spillBack xs i (d - 30)).set i 30 := by
  have hrun : smearFrom xs.length 0 xs = smearFrom (xs.length - i) i xs := by
    have h := smearFrom_run xs.length 0 i xs (Nat.zero_le i) (by omega)
      (fun m _ hmi => by rw [hz m (Nat.ne_of_lt hmi)]; norm_num)
    simpa using h
  have hlen : xs.length - i = (xs.length - i - 1) + 1 := by omega
  rw [smearCol, hrun, hlen, smearFrom, if_pos (by rw [hd]; exact h30), hd]
  apply smearFrom_skip
  intro m hm
  rw [getD_set_ne _ _ _ _ (by omega),
    spillBack_getD_ge _ _ _ _ (by omega), hz m (by omega)]
  norm_num

/-- Claim C1: duration-smearing mass conservation.  For a duration-marked
column that is zero everywhere except a single sample of value `d > 30`
at index `i`, with at least `k = ⌈(d−30)/60⌉` earlier samples available
(`k` is the number of backward steps the walk takes before `remaining`
runs out), the transformed column sums to exactly `d` over the window
`[i−k..i]`, and every index below `i−k` is unchanged. -/
theorem durSmear_mass_conservation (t : Table) (p : Nat) (nm : String)
    (xs : Col) (d : ℚ) (i k : Nat)
    (hcol : t.getD p (("", [])) = (nm, xs))
    (hdur : hasDurMark nm = true)
    (hi : i < xs.length)
    (hd : xs.getD i 0 = d)
    (h30 : 30 < d)
    (hz : ∀ m, m ≠ i → xs.getD m 0 = 0)
    (hk : k = (⌈(d - 30) / 60⌉).toNat)
    (hki : k ≤ i) :
    (Finset.Icc (i - k) i).sum
        (fun m => (((split_long_duration_to_past t).getD p (("", []))).2).getD m 0)
      = d
    ∧ ∀ m, m < i - k →
        (((split_long_duration_to_past t).getD p (("", []))).2).getD m 0
          = xs.getD m 0 := by
  subst hk
  have hp : p < t.length := by
    by_contra hc
    rw [getD_oob t p hc] at hcol
    have hxs : xs = [] := by
      injection hcol with h1 h2
      exact h2.symm
    rw [hxs] at hi
    exact absurd hi (by simp)
  rw [split_getD_of_mem t p nm xs hp hcol hdur]
  dsimp only
  have hr : (0:ℚ) < d - 30 := by linarith
  have hspike := smearCol_single_spike xs i d hi hd h30 hz
  have hlow : ∀ m, m < i - (⌈(d - 30) / 60⌉).toNat →
      (smearCol xs).getD m 0 = xs.getD m 0 := by
    intro m hm
    rw [hspike, getD_set_ne _ _ _ _ (by omega),
      spillBack_getD_low _ _ _ _ (by omega)]
  have hhigh : ∀ m, i < m → (smearCol xs).getD m 0 = xs.getD m 0 := by
    intro m hm
    rw [hspike, getD_set_ne _ _ _ _ (by omega),
      spillBack_getD_ge _ _ _ _ (by omega)]
  have hsum_xs : xs.sum = d := by
    rw [sum_eq_range_getD, Finset.sum_eq_single i
      (fun b _ hb => hz b hb) (fun hb => absurd (Finset.mem_range.mpr hi) hb)]
    exact hd
  have hsum_spill : (spillBack xs i (d - 30)).sum = xs.sum + (d - 30) :=
    spillBack_sum xs i (d - 30) hr hki (le_of_lt hi)
  have hslen : (smearCol xs).length = xs.length := smearCol_length xs
  have hsum_smear : (smearCol xs).sum = d := by
    rw [hspike, sum_set _ _ _ (by rw [spillBack_length]; exact hi),
      spillBack_getD_ge _ _ _ _ le_rfl, hd, hsum_spill, hsum_xs]
    ring
  constructor
  · have hsub : Finset.Icc (i - (⌈(d - 30) / 60⌉).toNat) i
        ⊆ Finset.range (smearCol xs).length := by
      intro m hm
      rw [Finset.mem_Icc] at hm
      rw [Finset.mem_range, hslen]
      omega
    have hzero : ∀ m ∈ Finset.range (smearCol xs).length,
        m ∉ Finset.Icc (i - (⌈(d - 30) / 60⌉).toNat) i →
        (smearCol xs).getD m 0 = 0 := by
      intro m _ hmi
      rw [Finset.mem_Icc] at hmi
      push_neg at hmi
      rcases Nat.lt_or_ge m (i - (⌈(d - 30) / 60⌉).toNat) with h | h
      · rw [hlow m h]
        exact hz m (by omega)
      · have h2 : i < m := by omega
        rw [hhigh m h2]
        exact hz m (by omega)
    rw [Finset.sum_subset hsub hzero, ← sum_eq_range_getD]
    exact hsum_smear
  · exact hlow

theorem ceil_67_toNat : ((⌈((97:ℚ) - 30) / 60⌉).toNat) = 2 := by
  have h : ⌈((97:ℚ) - 30) / 60⌉ = 2 := by
    rw [Int.ceil_eq_iff]
    constructor <;> norm_num
  rw [h]
  rfl

theorem durSmear_mass_conservation_witness :
    (Finset.Icc (2 - 2) 2).sum
        (fun m => (((split_long_duration_to_past
          [(("duration_x"), [0, 0, 97, 0, 0])]).getD 0 (("", []))).2).getD m 0)
      = 97
    ∧ ∀ m, m < 2 - 2 →
        (((split_long_duration_to_past
          [(("duration_x"), [0, 0, 97, 0, 0])]).getD 0 (("", []))).2).getD m 0
          = ([0, 0, 97, 0, 0] : Col).getD m 0 :=
  durSmear_mass_conservation [(("duration_x"), [0, 0, 97, 0, 0])] 0
    ("duration_x") [0, 0, 97, 0, 0] 97 2 2 rfl hasDurMark_duration_x
    (by norm_num) rfl (by norm_num)
    (fun m hm => by
      match m with
      | 0 => rfl
      | 1 => rfl
      | 2 => exact absurd rfl hm
      | 3 => rfl
      | 4 => rfl
      | m + 5 => rfl)
    ceil_67_toNat.symm (by norm_num)

/-- Claim C2, counterexample: on `duration_x = [0,0,97,0,0]` the
transform does **not** produce the claimed `[0,7,30,30,0]`.  The walk
starts at index `i-1 = 1` (adding `min(67,60) = 60` there) and then adds
the remaining 7 at index 0, so the claimed trace's target indices are
off by one. -/
theorem endToEnd_smear_claim_false :
    split_long_duration_to_past [(("duration_x"), [0, 0, 97, 0, 0])]
      ≠ [(("duration_x"), [0, 7, 30, 30, 0])] := by
  rw [split_head_duration _ _ _ hasDurMark_duration_x, smearCol_97_eval]
  intro h
  injection h with h1 h2
  injection h1 with h3 h4
  norm_num at h4

/-- Claim C2, amended: for the 5-sample column `duration_x =
[0,0,97,0,0]`, one application of the duration-smearing transform yields
exactly `[7,60,30,0,0]`: remaining `97−30 = 67`; index 1 `+= min(67,60)
= 60`; remaining 7; index 0 `+= min(7,60) = 7`; index 2 set to 30. -/
theorem endToEnd_smear_result :
    split_long_duration_to_past [(("duration_x"), [0, 0, 97, 0, 0])]
      = [(("duration_x"), [7, 60, 30, 0, 0])] := by
  rw [split_head_duration _ _ _ hasDurMark_duration_x, smearCol_97_eval]
  rfl

/-- Claim C3, code bug: on the strictly increasing memory series
`[1,2,3]` the memory-increase transform yields `[0,0,1]`, not the first
differences `[0,1,1]` the spec states.  The script zeroes index 0
*before* the descending loop, so the loop's `i = 1` step reads
`oldest = 0` (instead of the original value 1) and writes 0 —
contradicting the script's own comment that updating the i-th value
needs the *original* (i−1)-th value. -/
theorem memIncrease_strict_increase_bug :
    memIncrease [1, 2, 3] = [0, 0, 1]
    ∧ memIncrease [1, 2, 3] ≠ [0, 1, 1] := by
  constructor
  · norm_num [memIncrease, memIncFrom]
  · norm_num [memIncrease, memIncFrom]

/-- Claim C5, counterexample: in the duration-marked column
`[0,0,97,0,0]` the sample at index 1 has value `0 ≤ 30`, yet the
transform changes it to 60: it receives the backward spill of the later
long sample at index 2. -/
theorem smear_boundary_claim_false :
    ([0, 0, 97, 0, 0] : Col).getD 1 0 ≤ 30
    ∧ hasDurMark ("duration_x") = true
    ∧ (((split_long_duration_to_past
          [(("duration_x"), [0, 0, 97, 0, 0])]).getD 0 (("", []))).2).getD 1 0
        ≠ ([0, 0, 97, 0, 0] : Col).getD 1 0 := by
  refine ⟨by norm_num, hasDurMark_duration_x, ?_⟩
  rw [split_head_duration _ _ _ hasDurMark_duration_x, smearCol_97_eval]
  norm_num

/-- Claim C5, amended: a sample of a duration-marked column whose value
is ≤ 30 is unchanged by the transform, provided every *later* sample of
that column is also ≤ 30 (a later sample exceeding 30 may spill into
it). -/
theorem smear_boundary_amended (t : Table) (p : Nat) (nm : String)
    (xs : Col) (i : Nat)
    (hcol : t.getD p (("", [])) = (nm, xs))
    (hdur : hasDurMark nm = true)
    (hle : ∀ m, i ≤ m → xs.getD m 0 ≤ 30) :
    (((split_long_duration_to_past t).getD p (("", []))).2).getD i 0
      = xs.getD i 0 := by
  have hp : p < t.length := by
    by_contra hc
    rw [getD_oob t p hc] at hcol
    injection hcol with h1 h2
    rw [← h1] at hdur
    rw [hasDurMark_empty] at hdur
    exact Bool.false_ne_true hdur
  rw [split_getD_of_mem t p nm xs hp hcol hdur]
  exact smearFrom_getD_suffix xs.length 0 i xs hle i le_rfl

theorem smear_boundary_amended_witness :
    (((split_long_duration_to_past
        [(("duration_x"), [0, 0, 97, 0, 0])]).getD 0 (("", []))).2).getD 3 0
      = ([0, 0, 97, 0, 0] : Col).getD 3 0 :=
  smear_boundary_amended [(("duration_x"), [0, 0, 97, 0, 0])] 0
    ("duration_x") [0, 0, 97, 0, 0] 3 rfl hasDurMark_duration_x
    (fun m hm => by
      match m with
      | 0 => omega
      | 1 => omega
      | 2 => omega
      | 3 => norm_num
      | 4 => norm_num
      | m + 5 => show (0:ℚ) ≤ 30; norm_num)

/-- Claim C10: the frame property of `split_long_duration_to_past`: the
list of column names is unchanged (so the set of names and the number of
columns are), every column whose name does not contain `duration` is
entirely unchanged, and every column keeps its number of rows. -/
theorem smear_frame (t : Table) :
    (split_long_duration_to_past t).map Prod.fst = t.map Prod.fst
    ∧ (∀ p, p < t.length → hasDurMark ((t.getD p (("", []))).1) = false →
        (split_long_duration_to_past t).getD p (("", []))
          = t.getD p (("", [])))
    ∧ ∀ p, p < t.length →
        ((split_long_duration_to_past t).getD p (("", []))).2.length
          = (t.getD p (("", []))).2.length := by
  refine ⟨?_, ?_, ?_⟩
  · rw [split_long_duration_to_past, List.map_map]
    apply List.map_congr_left
    intro c _
    by_cases h : hasDurMark c.1 <;> simp [h]
  · intro p hp hnd
    cases hx : t[p]? with
    | none =>
        rw [List.getElem?_eq_none_iff] at hx
        omega
    | some c =>
        rw [List.getD_eq_getElem?_getD, hx] at hnd
        simp only [Option.getD_some] at hnd
        rw [List.getD_eq_getElem?_getD, List.getD_eq_getElem?_getD,
          split_long_duration_to_past, List.getElem?_map, hx]
        simp [hnd]
  · intro p hp
    cases hx : t[p]? with
    | none =>
        rw [List.getElem?_eq_none_iff] at hx
        omega
    | some c =>
        rw [List.getD_eq_getElem?_getD, List.getD_eq_getElem?_getD,
          split_long_duration_to_past, List.getElem?_map, hx]
        by_cases h : hasDurMark c.1 <;> simp [h, smearCol_length]

theorem smear_frame_witness :
    (split_long_duration_to_past
        [(("CPU"), [1, 5]), (("duration_x"), [50, 0])]).map Prod.fst
      = [(("CPU"), [1, 5]), (("duration_x"), [50, 0])].map Prod.fst :=
  (smear_frame [(("CPU"), [1, 5]), (("duration_x"), [50, 0])]).1

/-! ## Characterization of the memory-increase loop -/

/-- The descending loop never touches index 0 nor any index above its
starting point. -/
theorem memIncFrom_getD_frame (i : Nat) (xs : Col) (m : Nat)
    (hm : m = 0 ∨ i < m) : (memIncFrom xs i).getD m 0 = xs.getD m 0 := by
  induction i generalizing xs with
  | zero => rfl
  | succ i' ih =>
      rw [memIncFrom]
      have hne : i' + 1 ≠ m := by omega
      by_cases h : xs.getD i' 0 = 0 ∨ xs.getD (i'+1) 0 < xs.getD i' 0
      · rw [if_pos h, ih _ (by omega), getD_set_ne _ _ _ _ hne]
      · rw [if_neg h, ih _ (by omega), getD_set_ne _ _ _ _ hne]

/-- Value written by the descending loop at any processed index `m`: the
loop runs from high to low indices and writes only index `m` at its
`i = m` step, reading `oldest`/`newest` at `m-1`/`m` from state that
still holds the values the loop started from. -/
theorem memIncFrom_getD_char (i : Nat) (xs : Col) (m : Nat)
    (h1 : 1 ≤ m) (h2 : m ≤ i) (h3 : i < xs.length) :
    (memIncFrom xs i).getD m 0
      = (if xs.getD (m-1) 0 = 0 ∨ xs.getD m 0 < xs.getD (m-1) 0 then 0
         else xs.getD m 0 - xs.getD (m-1) 0) := by
  induction i generalizing xs with
  | zero => omega
  | succ i' ih =>
      rw [memIncFrom]
      by_cases hcond : xs.getD i' 0 = 0 ∨ xs.getD (i'+1) 0 < xs.getD i' 0
      · rw [if_pos hcond]
        rcases Nat.eq_or_lt_of_le h2 with heq | hlt
        · subst heq
          rw [memIncFrom_getD_frame _ _ _ (Or.inr (by omega)),
            getD_set_self _ _ _ h3]
          simp only [Nat.add_sub_cancel]
          rw [if_pos hcond]
        · have hm' : m ≤ i' := by omega
          rw [ih _ hm' (by rw [List.length_set]; omega),
            getD_set_ne _ _ _ _ (by omega), getD_set_ne _ _ _ _ (by omega)]
      · rw [if_neg hcond]
        rcases Nat.eq_or_lt_of_le h2 with heq | hlt
        · subst heq
          rw [memIncFrom_getD_frame _ _ _ (Or.inr (by omega)),
            getD_set_self _ _ _ h3]
          simp only [Nat.add_sub_cancel]
          rw [if_neg hcond]
        · have hm' : m ≤ i' := by omega
          rw [ih _ hm' (by rw [List.length_set]; omega),
            getD_set_ne _ _ _ _ (by omega), getD_set_ne _ _ _ _ (by omega)]

/-- Claim C4: memory-increase non-negativity and drop handling.  For
every memory series, every transformed value at an index `i > 0` is
≥ 0, and whenever the original value at `i-1` is 0 or exceeds the
original value at `i` (a detected drop), the transformed value at `i` is
exactly 0. -/
theorem memIncrease_nonneg_drop (xs : Col) (i : Nat) (h1 : 0 < i)
    (h2 : i < xs.length) :
    0 ≤ (memIncrease xs).getD i 0
    ∧ ((xs.getD (i-1) 0 = 0 ∨ xs.getD i 0 < xs.getD (i-1) 0) →
        (memIncrease xs).getD i 0 = 0) := by
  rw [memIncrease,
    memIncFrom_getD_char (xs.length - 1) (xs.set 0 0) i h1 (by omega)
      (by rw [List.length_set]; omega),
    getD_set_ne _ _ _ _ (by omega : (0:Nat) ≠ i)]
  by_cases hi1 : i = 1
  · subst hi1
    rw [(by rfl : (1:Nat) - 1 = 0), getD_set_self _ _ _ (by omega)]
    rw [if_pos (Or.inl rfl)]
    exact ⟨le_refl 0, fun _ => rfl⟩
  · rw [getD_set_ne _ _ _ _ (by omega : (0:Nat) ≠ i - 1)]
    by_cases hc : xs.getD (i-1) 0 = 0 ∨ xs.getD i 0 < xs.getD (i-1) 0
    · rw [if_pos hc]
      exact ⟨le_refl 0, fun _ => rfl⟩
    · rw [if_neg hc]
      have hle : xs.getD (i-1) 0 ≤ xs.getD i 0 := by
        rcases le_or_lt (xs.getD (i-1) 0) (xs.getD i 0) with h | h
        · exact h
        · exact absurd (Or.inr h) hc
      exact ⟨sub_nonneg.mpr hle, fun hcc => absurd hcc hc⟩

theorem memIncrease_nonneg_drop_witness :
    0 ≤ (memIncrease [3, 1, 5]).getD 1 0
    ∧ ((([3, 1, 5] : Col).getD 0 0 = 0
        ∨ ([3, 1, 5] : Col).getD 1 0 < ([3, 1, 5] : Col).getD 0 0) →
        (memIncrease [3, 1, 5]).getD 1 0 = 0) :=
  memIncrease_nonneg_drop [3, 1, 5] 1 (by norm_num) (by norm_num)

/-! ## Aggregation: partition of a table by group key -/

theorem getD_range_map (n i : Nat) (f : Nat → ℚ) (hi : i < n) :
    ((List.range n).map f).getD i 0 = f i := by
  rw [List.getD_eq_getElem?_getD, List.getElem?_map, List.getElem?_range hi]
  rfl

theorem sum_filter_split (l : Table) (p : (String × Col) → Bool)
    (f : (String × Col) → ℚ) :
    ((l.filter p).map f).sum + ((l.filter (fun c => !(p c))).map f).sum
      = (l.map f).sum := by
  induction l with
  | nil => simp
  | cons a t ih =>
      by_cases h : p a
      · simp [List.filter_cons, h]
        linarith [ih]
      · simp [List.filter_cons, h]
        linarith [ih]

/-- Summing, over a duplicate-free list of keys covering every element's
key, the sums of the fibres of a table recovers the total sum. -/
theorem sum_partition (keys : List String) (l : Table)
    (f : (String × Col) → ℚ) (hnd : keys.Nodup)
    (hcov : ∀ c ∈ l, lastToken c.1 ∈ keys) :
    (keys.map (fun g =>
        ((l.filter (fun c => lastToken c.1 == g)).map f).sum)).sum
      = (l.map f).sum := by
  induction keys generalizing l with
  | nil =>
      cases l with
      | nil => simp
      | cons c t =>
          exact absurd (hcov c (List.mem_cons_self c t)) (List.not_mem_nil _)
  | cons g ks ih =>
      have hnd' : ks.Nodup := (List.nodup_cons.mp hnd).2
      have hgks : g ∉ ks := (List.nodup_cons.mp hnd).1
      have hcov' : ∀ c ∈ l.filter (fun c => !(lastToken c.1 == g)),
          lastToken c.1 ∈ ks := by
        intro c hc
        rw [List.mem_filter] at hc
        rcases List.mem_cons.mp (hcov c hc.1) with h | h
        · exact absurd (beq_iff_eq.mpr h) (by simpa using hc.2)
        · exact h
      rw [List.map_cons, List.sum_cons]
      have hmap : ks.map (fun k =>
            ((l.filter (fun c => lastToken c.1 == k)).map f).sum)
          = ks.map (fun k =>
            (((l.filter (fun c => !(lastToken c.1 == g))).filter
              (fun c => lastToken c.1 == k)).map f).sum) := by
        apply List.map_congr_left
        intro k hk
        have hfk : l.filter (fun c => lastToken c.1 == k)
            = (l.filter (fun c => !(lastToken c.1 == g))).filter
                (fun c => lastToken c.1 == k) := by
          rw [List.filter_filter]
          apply List.filter_congr
          intro c _
          by_cases hck : (lastToken c.1 == k) = true
          · have hkg : k ≠ g := fun hkg => hgks (hkg ▸ hk)
            have hne : (lastToken c.1 == g) = false := by
              rw [beq_iff_eq] at hck
              rw [beq_eq_false_iff_ne, hck]
              exact hkg
            simp [hck, hne]
          · simp [Bool.eq_false_iff.mpr hck]
        rw [hfk]
      rw [hmap, ih _ hnd' hcov', ← sum_filter_split l
        (fun c => lastToken c.1 == g) f]

/-- Claim C6, counterexample: with per-process columns
`proc.hog.cpu java = [1]` and `proc.hog.cpu javac = [10]`, the group
regex `java` also matches the column of the *other* process `javac`
(`pivot_df.filter(regex=group)` searches anywhere in the name), so the
aggregated columns sum to 21 while the originals sum to 11: mass is not
preserved. -/
theorem agg_mass_claim_false :
    ((aggPivot 1 ("proc.hog.cpu")
        [(("proc.hog.cpu java"), [1]), (("proc.hog.cpu javac"), [10])]).map
      (fun c => c.2.getD 0 0)).sum
      ≠ (([(("proc.hog.cpu java"), [1]), (("proc.hog.cpu javac"), [10])]
          : Table).map (fun c => c.2.getD 0 0)).sum := by
  have hg : (([(("proc.hog.cpu java"), ([1] : Col)),
      (("proc.hog.cpu javac"), ([10] : Col))].map
        (fun c => lastToken c.1)).dedup) = [("java"), ("javac")] := by decide
  have o1 : occursIn ("java") ("proc.hog.cpu java") = true := by decide
  have o2 : occursIn ("java") ("proc.hog.cpu javac") = true := by decide
  have o3 : occursIn ("javac") ("proc.hog.cpu java") = false := by decide
  have o4 : occursIn ("javac") ("proc.hog.cpu javac") = true := by decide
  rw [aggPivot, hg]
  simp only [List.map_cons, List.map_nil, List.range_succ, List.range_zero,
    List.nil_append, aggGroupAt, List.filter_cons, List.filter_nil,
    o1, o2, o3, o4]
  norm_num

/-- Claim C6, amended: aggregation preserves mass at every sample index
`i < n`, **provided** each group identifier selects exactly the columns
of its own group: for every pivot column `c` and every group `g`, the
regex match of `g` against `c`'s name succeeds iff `g` is the final
whitespace token of `c`'s name.  (A group identifier occurring as a
substring of a different column's name — e.g. processes `java` and
`javac` — double-counts that column.) -/
theorem agg_mass_preservation (n : Nat) (pivot : String)
    (pivotCols : Table) (i : Nat) (hi : i < n)
    (hsel : ∀ c ∈ pivotCols,
        ∀ g ∈ (pivotCols.map (fun c => lastToken c.1)).dedup,
        occursIn g c.1 = (lastToken c.1 == g)) :
    ((aggPivot n pivot pivotCols).map (fun c => c.2.getD i 0)).sum
      = (pivotCols.map (fun c => c.2.getD i 0)).sum := by
  rw [aggPivot, List.map_map]
  have h1 : ((pivotCols.map (fun c => lastToken c.1)).dedup).map
        ((fun c => c.2.getD i 0) ∘ (fun g => (pivot ++ ":" ++ g,
          (List.range n).map (fun i => aggGroupAt pivotCols g i))))
      = ((pivotCols.map (fun c => lastToken c.1)).dedup).map
        (fun g => ((pivotCols.filter
          (fun c => lastToken c.1 == g)).map (fun c => c.2.getD i 0)).sum) := by
    apply List.map_congr_left
    intro g hg
    show ((List.range n).map (fun i => aggGroupAt pivotCols g i)).getD i 0 = _
    rw [getD_range_map n i _ hi, aggGroupAt,
      List.filter_congr (fun c hc => hsel c hc g hg)]
  rw [h1]
  exact sum_partition ((pivotCols.map (fun c => lastToken c.1)).dedup)
    pivotCols (fun c => c.2.getD i 0) (List.nodup_dedup _)
    (fun c hc => List.mem_dedup.mpr (List.mem_map_of_mem _ hc))

theorem agg_mass_preservation_witness :
    ((aggPivot 2 ("proc.hog.cpu")
        [(("proc.hog.cpu bash"), [2, 3]), (("proc.hog.cpu java"), [5, 7])]).map
      (fun c => c.2.getD 0 0)).sum
      = (([(("proc.hog.cpu bash"), [2, 3]), (("proc.hog.cpu java"), [5, 7])]
          : Table).map (fun c => c.2.getD 0 0)).sum :=
  agg_mass_preservation 2 ("proc.hog.cpu")
    [(("proc.hog.cpu bash"), [2, 3]), (("proc.hog.cpu java"), [5, 7])] 0
    (by norm_num) (by decide)

/-! ## Ranking shape and the perfect-correlation bound -/

/-- Claim C7: for every candidate table, load series and positive items
limit, the ranking built by the correlation engine (coefficient of every
column, NaN replaced by 0, sorted descending by coefficient *value*,
truncated) has length ≤ the limit, is sorted descending, and each of its
entries is the (name, NaN-filled coefficient) of a column of the
table. -/
theorem rank_shape (n : Nat) (t : Table) (load : Col) (limit : Nat)
    (hpos : 0 < limit) :
    (rankCorrel n t load limit).length ≤ limit
    ∧ List.Sorted rankLe (rankCorrel n t load limit)
    ∧ ∀ p ∈ rankCorrel n t load limit,
        ∃ c ∈ t, p = (c.1, (corrKey n c.2 load).getD 0) := by
  refine ⟨?_, ?_, ?_⟩
  · rw [rankCorrel, List.length_take]
    exact min_le_left _ _
  · exact List.Pairwise.sublist (List.take_sublist _ _)
      (List.sorted_insertionSort rankLe _)
  · intro p hp
    have h1 : p ∈ List.insertionSort rankLe (t.map (coeffFill n load)) :=
      (List.take_sublist _ _).subset hp
    rw [List.mem_insertionSort] at h1
    rcases List.mem_map.mp h1 with ⟨c, hc, hcp⟩
    exact ⟨c, hc, by rw [← hcp]; rfl⟩

theorem rank_shape_witness :
    (rankCorrel 2 [(("a"), [1, 2])] [1, 2] 1).length ≤ 1
    ∧ List.Sorted rankLe (rankCorrel 2 [(("a"), [1, 2])] [1, 2] 1)
    ∧ ∀ p ∈ rankCorrel 2 [(("a"), [1, 2])] [1, 2] 1,
        ∃ c ∈ ([(("a"), [1, 2])] : Table),
          p = (c.1, (corrKey 2 c.2 [1, 2]).getD 0) :=
  rank_shape 2 [(("a"), [1, 2])] [1, 2] 1 (by norm_num)

theorem varN_zero_of_n_zero (xs : Col) : varN 0 xs = 0 := by
  simp [varN, covN, dotN, sumN]

/-- Key algebraic identity: summing the centered products
`(n·x i − Σx)(n·y i − Σy)` over the index gives `n · covN`. -/
theorem sum_centered_mul (n : Nat) (as bs : Col) :
    (Finset.range n).sum (fun i =>
        ((n : ℚ) * as.getD i 0 - sumN n as) * ((n : ℚ) * bs.getD i 0 - sumN n bs))
      = n * covN n as bs := by
  have hpt : ∀ i, ((n : ℚ) * as.getD i 0 - sumN n as)
        * ((n : ℚ) * bs.getD i 0 - sumN n bs)
      = (n : ℚ) * (n : ℚ) * (as.getD i 0 * bs.getD i 0)
        - ((n : ℚ) * sumN n bs) * as.getD i 0
        - ((n : ℚ) * sumN n as) * bs.getD i 0
        + sumN n as * sumN n bs := fun i => by ring
  rw [Finset.sum_congr rfl (fun i _ => hpt i)]
  rw [Finset.sum_add_distrib, Finset.sum_sub_distrib, Finset.sum_sub_distrib,
    ← Finset.mul_sum, ← Finset.mul_sum, ← Finset.mul_sum,
    Finset.sum_const, Finset.card_range, nsmul_eq_mul]
  rw [covN, dotN, sumN, sumN]
  ring

theorem varN_nonneg (n : Nat) (xs : Col) : 0 ≤ varN n xs := by
  rcases Nat.eq_zero_or_pos n with h0 | hn
  · rw [h0, varN_zero_of_n_zero]
  · have hcs := Finset.sum_mul_sq_le_sq_mul_sq (Finset.range n)
      (fun i => (n : ℚ) * xs.getD i 0 - sumN n xs) (fun _ => (1:ℚ))
    have hsq : (Finset.range n).sum (fun i =>
          ((n : ℚ) * xs.getD i 0 - sumN n xs) ^ 2)
        = n * varN n xs := by
      rw [varN, ← sum_centered_mul n xs xs]
      exact Finset.sum_congr rfl (fun i _ => pow_two _)
    have hnn : (0:ℚ) ≤ (Finset.range n).sum (fun i =>
        ((n : ℚ) * xs.getD i 0 - sumN n xs) ^ 2) :=
      Finset.sum_nonneg (fun i _ => sq_nonneg _)
    rw [hsq] at hnn
    have hnq : (0:ℚ) < n := by exact_mod_cast hn
    nlinarith [hnn, hnq]

/-- Cauchy-Schwarz for the covariance/variance statistics. -/
theorem covN_sq_le (n : Nat) (xs ys : Col) :
    covN n xs ys ^ 2 ≤ varN n xs * varN n ys := by
  rcases Nat.eq_zero_or_pos n with h0 | hn
  · subst h0
    simp [covN, dotN, sumN, varN]
  · have hcs := Finset.sum_mul_sq_le_sq_mul_sq (Finset.range n)
      (fun i => (n : ℚ) * xs.getD i 0 - sumN n xs)
      (fun i => (n : ℚ) * ys.getD i 0 - sumN n ys)
    have h1 : (Finset.range n).sum (fun i =>
          ((n : ℚ) * xs.getD i 0 - sumN n xs)
            * ((n : ℚ) * ys.getD i 0 - sumN n ys))
        = n * covN n xs ys := sum_centered_mul n xs ys
    have h2 : (Finset.range n).sum (fun i =>
          ((n : ℚ) * xs.getD i 0 - sumN n xs) ^ 2)
        = n * varN n xs := by
      rw [varN, ← sum_centered_mul n xs xs]
      exact Finset.sum_congr rfl (fun i _ => pow_two _)
    have h3 : (Finset.range n).sum (fun i =>
          ((n : ℚ) * ys.getD i 0 - sumN n ys) ^ 2)
        = n * varN n ys := by
      rw [varN, ← sum_centered_mul n ys ys]
      exact Finset.sum_congr rfl (fun i _ => pow_two _)
    rw [h1, h2, h3] at hcs
    have hnq : (0:ℚ) < n := by exact_mod_cast hn
    have hn2 : (0:ℚ) < (n:ℚ) * (n:ℚ) := mul_pos hnq hnq
    have e1 : ((n:ℚ) * covN n xs ys) ^ 2
        = (n:ℚ) * (n:ℚ) * (covN n xs ys ^ 2) := by ring
    have e2 : (n:ℚ) * varN n xs * ((n:ℚ) * varN n ys)
        = (n:ℚ) * (n:ℚ) * (varN n xs * varN n ys) := by ring
    rw [e1, e2] at hcs
    exact le_of_mul_le_mul_left hcs hn2

/-- Every NaN-filled coefficient the engine produces is ≤ 1 (the
signed-square representation preserves this bound of Pearson's r),
as soon as the load series has nonzero variance. -/
theorem corrKeyFill_le_one (n : Nat) (xs ys : Col) :
    (corrKey n xs ys).getD 0 ≤ 1 := by
  rw [corrKey]
  by_cases hx : varN n xs = 0 ∨ varN n ys = 0
  · rw [if_pos hx]
    norm_num
  · rw [if_neg hx]
    push_neg at hx
    have hxpos : 0 < varN n xs := lt_of_le_of_ne (varN_nonneg n xs) (Ne.symm hx.1)
    have hypos : 0 < varN n ys := lt_of_le_of_ne (varN_nonneg n ys) (Ne.symm hx.2)
    rw [Option.getD_some, div_le_one (by positivity)]
    have habs : covN n xs ys * |covN n xs ys| ≤ covN n xs ys ^ 2 := by
      have h1 : covN n xs ys * |covN n xs ys| ≤ |covN n xs ys| * |covN n xs ys| :=
        mul_le_mul_of_nonneg_right (le_abs_self _) (abs_nonneg _)
      rw [abs_mul_abs_self] at h1
      nlinarith [h1]
    exact habs.trans (covN_sq_le n xs ys)

theorem getD_map_mul (c : ℚ) (l : Col) (i : Nat) :
    (l.map (fun v => c * v)).getD i 0 = c * l.getD i 0 := by
  rw [List.getD_eq_getElem?_getD, List.getD_eq_getElem?_getD, List.getElem?_map]
  cases l[i]? <;> simp

/-- Claim C9: the correlation engine is deterministic (it is a pure
function of the table and load series, so two runs coincide), and a
candidate column that is perfectly proportional to the load series (with
a positive factor, the load having nonzero variance) receives
coefficient exactly 1 and a coefficient-1 entry heads the ranking. -/
theorem correl_determinism_proportional (n limit : Nat) (t : Table)
    (load ys : Col) (nm : String) (c : ℚ)
    (hmem : (nm, ys) ∈ t)
    (hy : ys = load.map (fun v => c * v))
    (hc : 0 < c)
    (hvar : varN n load ≠ 0)
    (hlim : 0 < limit) :
    rankCorrel n t load limit = rankCorrel n t load limit
    ∧ (corrKey n ys load).getD 0 = 1
    ∧ (rankCorrel n t load limit).head?.map Prod.snd = some 1 := by
  have hgetD : ∀ i, ys.getD i 0 = c * load.getD i 0 := by
    intro i
    rw [hy, getD_map_mul]
  have hs : sumN n ys = c * sumN n load := by
    rw [sumN, sumN, Finset.mul_sum]
    exact Finset.sum_congr rfl (fun i _ => hgetD i)
  have hdot : dotN n ys load = c * dotN n load load := by
    rw [dotN, dotN, Finset.mul_sum]
    exact Finset.sum_congr rfl (fun i _ => by rw [hgetD i]; ring)
  have hdotyy : dotN n ys ys = c * c * dotN n load load := by
    rw [dotN, dotN, Finset.mul_sum]
    exact Finset.sum_congr rfl (fun i _ => by rw [hgetD i]; ring)
  have hcov : covN n ys load = c * varN n load := by
    rw [covN, varN, covN, hdot, hs]
    ring
  have hvy : varN n ys = c * c * varN n load := by
    rw [varN, covN, varN, covN, hdotyy, hs]
    ring
  have hVpos : 0 < varN n load :=
    lt_of_le_of_ne (varN_nonneg n load) (Ne.symm hvar)
  have hcond : ¬ (varN n ys = 0 ∨ varN n load = 0) := by
    rw [hvy]
    push_neg
    exact ⟨by positivity, hvar⟩
  have hkey : corrKey n ys load = some 1 := by
    rw [corrKey, if_neg hcond, hcov, hvy]
    have habs : |c * varN n load| = c * varN n load :=
      abs_of_pos (mul_pos hc hVpos)
    rw [habs]
    have hne : c * c * varN n load * varN n load ≠ 0 := by positivity
    congr 1
    rw [div_eq_one_iff_eq hne]
    ring
  refine ⟨rfl, by rw [hkey]; rfl, ?_⟩
  have hmemL : (nm, (1:ℚ)) ∈ List.insertionSort rankLe (t.map (coeffFill n load)) := by
    rw [List.mem_insertionSort]
    have hcf : coeffFill n load (nm, ys) = (nm, 1) := by
      rw [coeffFill, hkey]
      rfl
    rw [← hcf]
    exact List.mem_map_of_mem _ hmem
  have hbound : ∀ p ∈ List.insertionSort rankLe (t.map (coeffFill n load)),
      p.2 ≤ 1 := by
    intro p hp
    rw [List.mem_insertionSort] at hp
    rcases List.mem_map.mp hp with ⟨c', hc', hcp⟩
    rw [← hcp]
    exact corrKeyFill_le_one n c'.2 load
  cases hL : List.insertionSort rankLe (t.map (coeffFill n load)) with
  | nil =>
      rw [hL] at hmemL
      exact absurd hmemL (List.not_mem_nil _)
  | cons a l' =>
      have hsorted := List.sorted_insertionSort rankLe (t.map (coeffFill n load))
      rw [hL] at hsorted hmemL
      have ha_le : a.2 ≤ 1 :=
        hbound a (by rw [hL]; exact List.mem_cons_self a l')
      have ha1 : a.2 = 1 := by
        rcases List.mem_cons.mp hmemL with heq | hmem' 
        · rw [← heq]
        · have hr : rankLe a (nm, 1) := (List.pairwise_cons.mp hsorted).1 _ hmem'
          exact le_antisymm ha_le hr
      cases limit with
      | zero => omega
      | succ m =>
          rw [rankCorrel, hL, List.take_succ_cons]
          simp [ha1]

theorem correl_determinism_proportional_witness :
    rankCorrel 3 [(("y"), [2, 4, 6])] [1, 2, 3] 1
        = rankCorrel 3 [(("y"), [2, 4, 6])] [1, 2, 3] 1
    ∧ (corrKey 3 [2, 4, 6] [1, 2, 3]).getD 0 = 1
    ∧ (rankCorrel 3 [(("y"), [2, 4, 6])] [1, 2, 3] 1).head?.map Prod.snd
        = some 1 :=
  correl_determinism_proportional 3 1 [(("y"), [2, 4, 6])] [1, 2, 3]
    [2, 4, 6] ("y") 2 (List.mem_cons_self _ _)
    (by norm_num)
    (by norm_num)
    (by norm_num [varN, covN, dotN, sumN, Finset.sum_range_succ])
    (by norm_num)

/-! ## Fatal-input behaviour -/

/-- Once past the two explicit checks, the script never takes the
`exit(1)` path again: everything later either completes with reports or
dies on an unhandled lookup error (`crash`). -/
theorem runPipeline_ne_fatal (n limit : Nat) (lt : LoadType) (sym : Bool)
    (df0 : Table) (code : Nat) :
    runPipeline n limit lt sym df0 ≠ ScriptOutcome.fatal code := by
  dsimp only [runPipeline]
  repeat' split
  all_goals intro hh
  all_goals exact ScriptOutcome.noConfusion hh

/-- Claim C8, amended: requesting a memory-inclusive load type against
an input lacking the committed-memory column makes the program exit with
code 1 straight from the up-front check, before any transform and with
no report; and the explicit-check `exit(1)` path is taken *only* when a
required load column is absent for the requested load type.  (As the
counterexample shows, this check is however not the only way the program
can die: a required load column that is present but all-zero passes the
checks, is then dropped by the all-zero-column filter, and the run
aborts later with an unhandled error, after transforms have run.) -/
theorem fatal_input_behaviour (n limit : Nat) (lt : LoadType) (sym : Bool)
    (df0 : Table) :
    (lt ≠ LoadType.cpu → ("mem.util.committed_AS") ∉ df0.map Prod.fst →
      runScript n limit lt sym df0 = ScriptOutcome.fatal 1)
    ∧ ∀ code, runScript n limit lt sym df0 = ScriptOutcome.fatal code →
        code = 1
        ∧ ((lt ≠ LoadType.cpu
              ∧ ("mem.util.committed_AS") ∉ df0.map Prod.fst)
           ∨ (lt ≠ LoadType.memory
              ∧ ("kernel.all.load-1 minute") ∉ df0.map Prod.fst)) := by
  constructor
  · intro h1 h2
    rw [runScript, if_pos ⟨h1, h2⟩]
  · intro code hrun
    rw [runScript] at hrun
    by_cases hA : lt ≠ LoadType.cpu
        ∧ ("mem.util.committed_AS") ∉ df0.map Prod.fst
    · rw [if_pos hA] at hrun
      injection hrun with h
      exact ⟨h.symm, Or.inl hA⟩
    · rw [if_neg hA] at hrun
      by_cases hB : lt ≠ LoadType.memory
          ∧ ("kernel.all.load-1 minute") ∉ df0.map Prod.fst
      · rw [if_pos hB] at hrun
        injection hrun with h
        exact ⟨h.symm, Or.inr hB⟩
      · rw [if_neg hB] at hrun
        exact absurd hrun (runPipeline_ne_fatal n limit lt sym df0 code)

theorem fatal_input_behaviour_witness :
    runScript 3 5 LoadType.memory false [(("some.metric"), [1, 2, 3])]
      = ScriptOutcome.fatal 1 :=
  (fatal_input_behaviour 3 5 LoadType.memory false
    [(("some.metric"), [1, 2, 3])]).1 (by decide) (by decide)

/-- Claim C8, counterexample: the missing-required-load-column check is
**not** the only fatal condition.  With load type `CPU` and an input
whose required CPU load column `kernel.all.load-1 minute` is present but
uniformly zero, both checks pass (the column is in `df.columns`), the
all-zero-column filter then drops it, and the run dies on the unhandled
lookup `df_load["CPU"]` (modelled `crash`: Python aborts with a
traceback, after the smearing transform already ran and after partial
output was printed) instead of the checked `exit(1)` path. -/
theorem only_fatal_claim_false :
    runScript 2 5 LoadType.cpu false
        [(("kernel.all.load-1 minute"), [0, 0])]
      = ScriptOutcome.crash
    ∧ ("kernel.all.load-1 minute")
        ∈ [(("kernel.all.load-1 minute"), ([0, 0] : Col))].map Prod.fst := by
  constructor
  · decide
  · decide
